import Mathlib

/-!
Verification of the matching/synthesis core of the `runson` package
(`src/runson/core/matching.py`, `src/runson/core/synthesis.py`,
`src/runson/core/inference.py`, and `Requirement` from
`src/runson/cli/config.py`).

Strings are modelled as `List Char` (Python `str` over ASCII instance
names), prices and numeric requirements as `ℚ` (exact model of the
numeric comparisons the code performs on Python floats/ints; every
comparison appearing in the verified claims has the same outcome over
`ℚ` as over IEEE doubles for the concrete values involved).
`None`-able values are `Option`s.
-/

namespace Runson

/-- Python `str.lower()` restricted to ASCII, applied characterwise. -/
def lowerStr (s : List Char) : List Char := s.map Char.toLower

/-- Membership of a character in the regex class `[a-z0-9]` (code points
97–122 and 48–57).  Under `re.IGNORECASE` a character matches `[a-z0-9]`
iff its lowercase form is in this set, which is how it is used below. -/
def isLowerAlnum (c : Char) : Bool :=
  decide ((97 ≤ c.toNat ∧ c.toNat ≤ 122) ∨ (48 ≤ c.toNat ∧ c.toNat ≤ 57))

/-- Python `s.rstrip("*")`: remove every trailing `'*'`. -/
def rstripStar (s : List Char) : List Char :=
  (s.reverse.dropWhile (fun c => decide (c = '*'))).reverse

/-- Python `s.endswith("*")` (false on the empty string). -/
def endsInStar (s : List Char) : Bool :=
  match s.getLast? with
  | some c => decide (c = '*')
  | none => false

/-- Lexicographic `≤` on strings by code point, as Python compares `str`. -/
def strLe : List Char → List Char → Bool
  | [], _ => true
  | _ :: _, [] => false
  | a :: as, b :: bs => if a = b then strLe as bs else decide (a < b)

/-- Insert into a list so that an already `strLe`-sorted list stays sorted. -/
def insStr (x : List Char) : List (List Char) → List (List Char)
  | [] => [x]
  | y :: ys => if strLe x y then x :: y :: ys else y :: insStr x ys

/-- Ascending sort of a list of strings.  Python's `sorted` on a list of
distinct strings produces the unique ascending enumeration, which this
insertion sort also produces; it is only ever applied after `dedup`. -/
def sortStrs : List (List Char) → List (List Char)
  | [] => []
  | x :: xs => insStr x (sortStrs xs)

/-- Matching of the tail regex `[a-z0-9]*\.` at the start of an
(already lowercased) string: scan characters of `[a-z0-9]` until a `'.'`
is found; any other character (or running out of input) fails.  Since
`'.'` is not in `[a-z0-9]`, this deterministic scan is exactly the
backtracking regex semantics. -/
def scanAlnumDot : List Char → Bool
  | [] => false
  | c :: rest =>
    if c = '.' then true
    else if isLowerAlnum c then scanAlnumDot rest else false

/-- Matching of the full regex `^<clean>[a-z0-9]*\.` over lowercased
strings: consume the literal `clean` prefix, then `scanAlnumDot`. -/
def prefMatch : List Char → List Char → Bool
  | [], name => scanAlnumDot name
  | _ :: _, [] => false
  | p :: ps, c :: cs => decide (p = c) && prefMatch ps cs

/-- Embedding of `matching.matches_family_pattern(api_name, pattern)`:
empty name never matches; the pattern is stripped of trailing `'*'`;
if the stripped pattern contains `'.'` it is compared for
case-insensitive equality, otherwise the case-insensitive regex
`^<escaped clean>[a-z0-9]*\.` must match at the start of the name.
`re.escape` makes `clean` a literal, and `re.IGNORECASE` over ASCII is
modelled by lowercasing both sides. -/
def matches_family_pattern (api_name pat : List Char) : Bool :=
  if api_name = [] then false
  else if '.' ∈ rstripStar pat then
    decide (lowerStr api_name = lowerStr (rstripStar pat))
  else prefMatch (lowerStr (rstripStar pat)) (lowerStr api_name)

/-- Embedding of `matching.matches_any_pattern`. -/
def matches_any_pattern (api_name : List Char) (patterns : List (List Char)) : Bool :=
  patterns.any (fun p => matches_family_pattern api_name p)

/-- Embedding of `config.Requirement` (a cpu/ram requirement). -/
structure Requirement where
  min_val : ℚ
  max_val : Option ℚ

/-- Embedding of `Requirement.matches`: exact match when `max_val` is
absent, inclusive range otherwise. -/
def Requirement.matches (r : Requirement) (value : ℚ) : Bool :=
  match r.max_val with
  | none => decide (value = r.min_val)
  | some mx => decide (r.min_val ≤ value ∧ value ≤ mx)

/-- An instance record as consumed by the core (the fields used by the
matching/filtering/synthesis functions). -/
structure Instance where
  api_name : List Char
  vcpus : ℚ
  memory_gb : ℚ
  price : Option ℚ
  arch : List Char
  ebs_mbps : Option Int
  nvme : Bool

/-- Guard `patterns is not None and not matches_any_pattern(...)` of
`filter_instances`, as the kept (non-`continue`) condition. -/
def passPatterns (o : Option (List (List Char))) (name : List Char) : Bool :=
  match o with
  | none => true
  | some ps => matches_any_pattern name ps

/-- Guard for an optional cpu/ram `Requirement`. -/
def passReq (o : Option Requirement) (v : ℚ) : Bool :=
  match o with
  | none => true
  | some r => r.matches v

/-- Guard `arches is not None and inst["arch"] not in arches`. -/
def passArch (o : Option (List (List Char))) (a : List Char) : Bool :=
  match o with
  | none => true
  | some arlist => decide (a ∈ arlist)

/-- Guard `max_price is not None and (price is None or price >= max_price)`. -/
def passMaxPrice (o : Option ℚ) (price : Option ℚ) : Bool :=
  match o with
  | none => true
  | some mp =>
    match price with
    | none => false
    | some pr => decide (pr < mp)

/-- Guard `ebs_min is not None and (ebs_mbps is None or ebs_mbps < ebs_min)`. -/
def passEbs (o : Option Int) (ebs : Option Int) : Bool :=
  match o with
  | none => true
  | some e =>
    match ebs with
    | none => false
    | some eb => decide (e ≤ eb)

/-- Guard `nvme is not None and inst.get("nvme", False) != nvme`. -/
def passNvme (o : Option Bool) (b : Bool) : Bool :=
  match o with
  | none => true
  | some nv => decide (b = nv)

/-- The conjunction of per-instance checks of `matching.filter_instances`
(the loop body's `continue` guards, each skipped when its parameter is
`None`). -/
def filter_keeps (patterns : Option (List (List Char))) (cpu ram : Option Requirement)
    (arches : Option (List (List Char))) (max_price : Option ℚ) (ebs_min : Option Int)
    (nvme : Option Bool) (inst : Instance) : Bool :=
  passPatterns patterns inst.api_name &&
  passReq cpu inst.vcpus &&
  passReq ram inst.memory_gb &&
  passArch arches inst.arch &&
  passMaxPrice max_price inst.price &&
  passEbs ebs_min inst.ebs_mbps &&
  passNvme nvme inst.nvme

/-- Embedding of `matching.filter_instances`: the `for`/`continue` loop
keeps exactly the instances passing every guard, in input order. -/
def filter_instances (instances : List Instance) (patterns : Option (List (List Char)))
    (cpu ram : Option Requirement) (arches : Option (List (List Char)))
    (max_price : Option ℚ) (ebs_min : Option Int) (nvme : Option Bool) : List Instance :=
  instances.filter (filter_keeps patterns cpu ram arches max_price ebs_min nvme)

/-- Embedding of `inference.get_family_prefix`: the part of the name
before the first `'.'` (the whole name when no dot is present), i.e.
Python `api_name.split(".")[0]`.  (The Python identifier ends in a word
this development cannot use as a suffix, hence the shortened name.) -/
def get_family_pre (api_name : List Char) : List Char :=
  api_name.takeWhile (fun c => decide (c ≠ '.'))

/-- The 2-character grouping key `family[:2]` used by `synthesize_globs`. -/
def twoOf (api_name : List Char) : List Char :=
  (get_family_pre api_name).take 2

/-- Embedding of the inner helper `max_price_for_glob_in_selected` of
`synthesis.synthesize_globs`: maximum known price among selected
instances matching the glob, `0.0` when there are none. -/
def max_price_for_glob_in_selected (selected : List Instance) (glob : List Char) : ℚ :=
  match (selected.filter (fun i => matches_family_pattern i.api_name glob)).filterMap
      (fun i => i.price) with
  | [] => 0
  | p :: ps => ps.foldl max p

/-- Embedding of the inner helper `glob_matches_non_nvme_in_universe`. -/
def glob_matches_non_nvme_in_universe (univ : List Instance) (glob : List Char) : Bool :=
  (univ.filter (fun i => matches_family_pattern i.api_name glob)).any (fun i => !i.nvme)

/-- Embedding of the inner helper `glob_is_valid`: the budget check runs
against `selected`, the NVMe check against the universe, each skipped
when its parameter is absent (`nvme` only fires when it `is True`). -/
def glob_is_valid (selected univ : List Instance) (budget : Option ℚ) (nvme : Option Bool)
    (glob : List Char) : Bool :=
  (match budget with
   | none => true
   | some b => decide (max_price_for_glob_in_selected selected glob ≤ b)) &&
  (match nvme with
   | some true => !glob_matches_non_nvme_in_universe univ glob
   | some false => true
   | none => true)

/-- The `result` list of `synthesize_globs` before post-processing: for
each 2-char prefix group (in sorted key order), the prefix glob when
valid, else per family-variant (in sorted key order) the variant glob
when valid, else the exact instance names of that variant group.
Grouping by a key is modelled as filtering on the key, which preserves
the insertion order of Python's dicts; `sorted(dict.items())` is the
ascending enumeration of the deduplicated keys. -/
def synthRaw (selected univ : List Instance) (budget : Option ℚ) (nvme : Option Bool) :
    List (List Char) :=
  (sortStrs ((selected.map (fun i => twoOf i.api_name)).dedup)).flatMap (fun p =>
    if glob_is_valid selected univ budget nvme (p ++ ['*']) then [p ++ ['*']]
    else
      (sortStrs (((selected.filter (fun i => decide (twoOf i.api_name = p))).map
          (fun i => get_family_pre i.api_name)).dedup)).flatMap (fun v =>
        if glob_is_valid selected univ budget nvme (v ++ ['*']) then [v ++ ['*']]
        else
          ((selected.filter (fun i => decide (twoOf i.api_name = p))).filter
            (fun i => decide (get_family_pre i.api_name = v))).map (fun i => i.api_name)))

/-- Embedding of `synthesis._glob_subsumes`. -/
def glob_subsumes (broader narrower : List Char) : Bool :=
  if !endsInStar broader then false
  else if decide ('.' ∈ narrower) && !endsInStar narrower then false
  else
    (rstripStar broader).isPrefixOf (rstripStar narrower) &&
      decide (rstripStar narrower ≠ rstripStar broader)

/-- The post-processing step of `synthesize_globs`:
`unique = sorted(set(result))`, then drop every glob subsumed by some
other element of `unique`. -/
def postprocess (raw : List (List Char)) : List (List Char) :=
  (sortStrs raw.dedup).filter (fun g =>
    !((sortStrs raw.dedup).any (fun other => decide (other ≠ g) && glob_subsumes other g)))

/-- Embedding of `synthesis.synthesize_globs`. -/
def synthesize_globs (selected univ : List Instance) (budget : Option ℚ)
    (nvme : Option Bool) : List (List Char) :=
  postprocess (synthRaw selected univ budget nvme)

/-- A runner configuration as consumed by `get_runner_price_range`
(`families` empty models both an absent and an empty `families` entry,
which the code treats identically). -/
structure RunnerConfig where
  families : List (List Char)
  cpu : Option Requirement
  ram : Option Requirement

/-- Sort key of `matching.sort(key=lambda x: x["price"])`; every sorted
instance has a known price, so the default is never consulted. -/
def priceKey (i : Instance) : ℚ := i.price.getD 0

/-- Python `list.sort(key=...)` is an ascending stable sort; an
insertion sort inserting before the first strictly-greater element is
the same function. -/
def sortByPrice (l : List Instance) : List Instance :=
  List.insertionSort (fun a b => priceKey a ≤ priceKey b) l

/-- Embedding of `matching.get_runner_price_range`. -/
def get_runner_price_range (rc : RunnerConfig) (instances : List Instance) :
    Option ℚ × Option ℚ × Option (List Char) × Option (List Char) :=
  if rc.families = [] then (none, none, none, none)
  else
    match (instances.filter (fun i =>
        matches_any_pattern i.api_name rc.families &&
        passReq rc.cpu i.vcpus &&
        passReq rc.ram i.memory_gb &&
        i.price.isSome)) with
    | [] => (none, none, none, none)
    | m =>
      ((sortByPrice m).head?.bind (fun i => i.price),
       (sortByPrice m).getLast?.bind (fun i => i.price),
       (sortByPrice m).head?.map (fun i => i.api_name),
       (sortByPrice m).getLast?.map (fun i => i.api_name))

/-! Specification-side definitions.  These follow the wording of the
claims being checked, not the code, and are compared with the embedded
functions by the theorems below. -/

/-- Spec-side reading of `matches_family_pattern`: after stripping the
trailing `'*'`s, a pattern containing `'.'` demands case-insensitive
equality, any other pattern demands that the name start
(case-insensitively) with the stripped pattern followed by zero or more
characters of `[a-z0-9]` and then a `'.'`. -/
def MatchSpec (api_name pat : List Char) : Prop :=
  ('.' ∈ rstripStar pat ∧ lowerStr api_name = lowerStr (rstripStar pat)) ∨
  ('.' ∉ rstripStar pat ∧
    ∃ mid rest, lowerStr api_name = lowerStr (rstripStar pat) ++ mid ++ '.' :: rest ∧
      ∀ c ∈ mid, isLowerAlnum c = true)

/-- Spec-side reading of the per-instance condition of
`filter_instances`: every constraint whose parameter is present must
hold, and an absent (`None`) constraint is skipped entirely. -/
def FilterSpec (patterns : Option (List (List Char))) (cpu ram : Option Requirement)
    (arches : Option (List (List Char))) (max_price : Option ℚ) (ebs_min : Option Int)
    (nvme : Option Bool) (inst : Instance) : Prop :=
  (∀ ps, patterns = some ps → ∃ p ∈ ps, matches_family_pattern inst.api_name p = true) ∧
  (∀ r, cpu = some r → r.matches inst.vcpus = true) ∧
  (∀ r, ram = some r → r.matches inst.memory_gb = true) ∧
  (∀ arlist, arches = some arlist → inst.arch ∈ arlist) ∧
  (∀ mp, max_price = some mp → ∃ pr, inst.price = some pr ∧ pr < mp) ∧
  (∀ e, ebs_min = some e → ∃ eb, inst.ebs_mbps = some eb ∧ e ≤ eb) ∧
  (∀ nv, nvme = some nv → inst.nvme = nv)

/-- Spec-side reading of `_glob_subsumes`: A must end in `'*'`, B must
not be an exact literal (a string containing `'.'` without a trailing
`'*'`), and after stripping trailing `'*'`s, B's prefix must properly
extend A's. -/
def SubsumesSpec (a b : List Char) : Prop :=
  (∃ l, a = l ++ ['*']) ∧
  ¬('.' ∈ b ∧ ¬∃ l, b = l ++ ['*']) ∧
  rstripStar a <+: rstripStar b ∧ rstripStar a ≠ rstripStar b

/-- Well-formed instance name per the data model: a family of
lowercase letters and digits, a dot, then a size containing no `'*'`. -/
def WFName (name : List Char) : Prop :=
  ∃ fam sz, name = fam ++ '.' :: sz ∧ (∀ c ∈ fam, isLowerAlnum c = true) ∧ '*' ∉ sz

/-- Spec-side reading of the cpu/ram gate of `get_runner_price_range`:
skipped when absent, `Requirement.matches` otherwise. -/
def OptReqOk (o : Option Requirement) (v : ℚ) : Prop :=
  ∀ r, o = some r → r.matches v = true

instance : (o : Option Requirement) → (v : ℚ) → Decidable (OptReqOk o v)
  | none, _ => isTrue (fun r h => by cases h)
  | some r, v =>
    decidable_of_iff (r.matches v = true)
      ⟨fun h r' h' => by cases h'; exact h, fun h => h r rfl⟩

/-- Spec-side reading of the selection of `get_runner_price_range`:
matches some family pattern, passes the cpu/ram requirements, and has a
known price. -/
def qualifies (rc : RunnerConfig) (i : Instance) : Prop :=
  (∃ p ∈ rc.families, matches_family_pattern i.api_name p = true) ∧
  OptReqOk rc.cpu i.vcpus ∧ OptReqOk rc.ram i.memory_gb ∧ ∃ pr, i.price = some pr

instance (rc : RunnerConfig) (i : Instance) : Decidable (qualifies rc i) := by
  haveI : Decidable (∃ pr, i.price = some pr) :=
    decidable_of_iff (i.price.isSome = true) Option.isSome_iff_exists
  unfold qualifies
  infer_instance

/-- The first element of a list attaining the minimal price key: the
head of a stable ascending sort. -/
def firstMinBy : List Instance → Option Instance
  | [] => none
  | a :: rest =>
    match firstMinBy rest with
    | none => some a
    | some m => if priceKey a ≤ priceKey m then some a else some m

/-- The last element of a list attaining the maximal price key: the
last element of a stable ascending sort. -/
def lastMaxBy : List Instance → Option Instance
  | [] => none
  | a :: rest =>
    match lastMaxBy rest with
    | none => some a
    | some m => if priceKey m < priceKey a then some a else some m

instance : IsTotal Instance (fun a b => priceKey a ≤ priceKey b) :=
  ⟨fun a b => le_total (priceKey a) (priceKey b)⟩

instance : IsTrans Instance (fun a b => priceKey a ≤ priceKey b) :=
  ⟨fun _ _ _ hab hbc => le_trans hab hbc⟩

/-! Concrete values used by witnesses and counterexamples. -/

/-- The rational 0.096 (the price of `m7i.large` in the sample table). -/
def p096 : ℚ := Rat.mk' 12 125 (by decide) (by decide)

/-- The rational 0.10. -/
def b010 : ℚ := Rat.mk' 1 10 (by decide) (by decide)

/-- The rational 0.05. -/
def b005 : ℚ := Rat.mk' 1 20 (by decide) (by decide)

/-- The `m7i.large` instance of the end-to-end scenario. -/
def m7iLarge : Instance :=
  ⟨['m','7','i','.','l','a','r','g','e'], 2, 8, some p096,
   ['x','8','6','_','6','4'], some 10000, false⟩

/-- An instance without local NVMe storage. -/
def m5NoNvme : Instance :=
  ⟨['m','5','.','l','a','r','g','e'], 2, 8, some 1, ['x','8','6','_','6','4'], none, false⟩

/-- An instance with local NVMe storage. -/
def m5dNvme : Instance :=
  ⟨['m','5','d','.','l','a','r','g','e'], 2, 8, some 1, ['x','8','6','_','6','4'], none, true⟩

/-- An instance whose api name has no dot. -/
def abInst : Instance :=
  ⟨['a','b'], 1, 1, some 0, ['x','8','6','_','6','4'], none, false⟩

/-! Helper lemmas about characters and strings. -/

theorem toNat_ofNat_valid (n : ℕ) (h : n < 55296) : (Char.ofNat n).toNat = n := by
  unfold Char.ofNat
  rw [dif_pos (Or.inl h)]
  unfold Char.ofNatAux Char.toNat
  show (UInt32.mk (BitVec.ofNatLt n (by omega))).toNat = n
  rw [UInt32.toNat]
  exact BitVec.toNat_ofNatLt n (by omega)

theorem toLower_fix {c : Char} (h : isLowerAlnum c = true) : c.toLower = c := by
  have h' := of_decide_eq_true h
  unfold Char.toLower
  rw [if_neg]
  omega

theorem toLower_eq_dot {c : Char} (h : c.toLower = '.') : c = '.' := by
  by_cases hc : 65 ≤ c.toNat ∧ c.toNat ≤ 90
  · exfalso
    unfold Char.toLower at h
    rw [if_pos hc] at h
    have h2 : (Char.ofNat (c.toNat + 32)).toNat = ('.' : Char).toNat := by rw [h]
    rw [toNat_ofNat_valid (c.toNat + 32) (by omega)] at h2
    have h3 : ('.' : Char).toNat = 46 := by decide
    omega
  · unfold Char.toLower at h
    rw [if_neg hc] at h
    exact h

theorem lowerAlnum_ne_dot {c : Char} (h : isLowerAlnum c = true) : c ≠ '.' := by
  intro hc
  subst hc
  exact absurd h (by decide)

theorem lowerAlnum_ne_star {c : Char} (h : isLowerAlnum c = true) : c ≠ '*' := by
  intro hc
  subst hc
  exact absurd h (by decide)

theorem lowerStr_fix {l : List Char} (h : ∀ c ∈ l, isLowerAlnum c = true) : lowerStr l = l := by
  unfold lowerStr
  induction l with
  | nil => rfl
  | cons c cs ih =>
    simp only [List.map_cons]
    rw [toLower_fix (h c (List.mem_cons_self c cs)),
      ih (fun x hx => h x (List.mem_cons_of_mem c hx))]

theorem dot_mem_lowerStr {l : List Char} : '.' ∈ lowerStr l ↔ '.' ∈ l := by
  unfold lowerStr
  constructor
  · intro h
    obtain ⟨c, hc, heq⟩ := List.mem_map.mp h
    rwa [toLower_eq_dot heq] at hc
  · intro h
    exact List.mem_map.mpr ⟨'.', h, by decide⟩

theorem mem_insStr {x y : List Char} {l : List (List Char)} :
    x ∈ insStr y l ↔ x = y ∨ x ∈ l := by
  induction l with
  | nil => simp [insStr]
  | cons z zs ih =>
    unfold insStr
    split
    · simp
    · simp only [List.mem_cons, ih]
      tauto

theorem mem_sortStrs {x : List Char} {l : List (List Char)} :
    x ∈ sortStrs l ↔ x ∈ l := by
  induction l with
  | nil => simp [sortStrs]
  | cons y ys ih =>
    unfold sortStrs
    rw [mem_insStr]
    simp [ih]

theorem rstripStar_append_star (l : List Char) : rstripStar (l ++ ['*']) = rstripStar l := by
  unfold rstripStar
  rw [List.reverse_append]
  rfl

theorem rstripStar_of_no_star {l : List Char} (h : '*' ∉ l) : rstripStar l = l := by
  unfold rstripStar
  have hd : l.reverse.dropWhile (fun c => decide (c = '*')) = l.reverse := by
    cases hr : l.reverse with
    | nil => rfl
    | cons c cs =>
      have hc : c ≠ '*' := by
        intro hc
        apply h
        rw [← List.mem_reverse, hr, hc]
        exact List.mem_cons_self _ _
      rw [List.dropWhile_cons, if_neg (by simp [hc])]
  rw [hd, List.reverse_reverse]

theorem endsInStar_iff {l : List Char} : endsInStar l = true ↔ ∃ m, l = m ++ ['*'] := by
  unfold endsInStar
  cases hl : l.getLast? with
  | none =>
    constructor
    · intro h
      exact absurd h (by decide)
    · rintro ⟨m, rfl⟩
      rw [List.getLast?_concat] at hl
      cases hl
  | some c =>
    rw [decide_eq_true_eq]
    constructor
    · intro h
      subst h
      obtain ⟨m, hm⟩ := List.getLast?_eq_some_iff.mp hl
      exact ⟨m, hm⟩
    · rintro ⟨m, rfl⟩
      rw [List.getLast?_concat] at hl
      injection hl with h1
      exact h1.symm

theorem scanAlnumDot_iff {s : List Char} :
    scanAlnumDot s = true ↔
      ∃ mid rest, s = mid ++ '.' :: rest ∧ ∀ c ∈ mid, isLowerAlnum c = true := by
  induction s with
  | nil =>
    constructor
    · intro h
      cases h
    · rintro ⟨mid, rest, h, -⟩
      exact absurd h (by simp)
  | cons c cs ih =>
    unfold scanAlnumDot
    by_cases hc : c = '.'
    · subst hc
      rw [if_pos rfl]
      constructor
      · intro _
        exact ⟨[], cs, rfl, by simp⟩
      · intro _
        rfl
    · rw [if_neg hc]
      by_cases ha : isLowerAlnum c = true
      · rw [if_pos ha, ih]
        constructor
        · rintro ⟨mid, rest, rfl, hm⟩
          refine ⟨c :: mid, rest, rfl, ?_⟩
          intro x hx
          rcases List.mem_cons.mp hx with rfl | hx
          · exact ha
          · exact hm x hx
        · rintro ⟨mid, rest, heq, hm⟩
          cases mid with
          | nil =>
            injection heq with h1 h2
            exact absurd h1 hc
          | cons d ds =>
            injection heq with h1 h2
            exact ⟨ds, rest, h2, fun x hx => hm x (List.mem_cons_of_mem d hx)⟩
      · rw [if_neg ha]
        constructor
        · intro h
          cases h
        · rintro ⟨mid, rest, heq, hm⟩
          cases mid with
          | nil =>
            injection heq with h1 h2
            exact absurd h1 hc
          | cons d ds =>
            injection heq with h1 h2
            subst h1
            exact absurd (hm c (List.mem_cons_self c ds)) ha

theorem prefMatch_iff {q : List Char} : ∀ {s : List Char},
    prefMatch q s = true ↔ ∃ t, s = q ++ t ∧ scanAlnumDot t = true := by
  induction q with
  | nil =>
    intro s
    constructor
    · intro h
      exact ⟨s, rfl, h⟩
    · rintro ⟨t, rfl, ht⟩
      exact ht
  | cons p ps ih =>
    intro s
    cases s with
    | nil =>
      constructor
      · intro h
        cases h
      · rintro ⟨t, h, -⟩
        exact absurd h (by simp)
    | cons c cs =>
      unfold prefMatch
      rw [Bool.and_eq_true, decide_eq_true_eq, ih]
      constructor
      · rintro ⟨rfl, t, rfl, ht⟩
        exact ⟨t, rfl, ht⟩
      · rintro ⟨t, heq, ht⟩
        injection heq with h1 h2
        exact ⟨h1.symm, t, h2, ht⟩

theorem append_dot_inj {A : List Char} : ∀ {B X Y : List Char},
    (∀ c ∈ A, c ≠ '.') → (∀ c ∈ B, c ≠ '.') →
    A ++ '.' :: X = B ++ '.' :: Y → A = B ∧ X = Y := by
  induction A with
  | nil =>
    intro B X Y _ hB h
    cases B with
    | nil =>
      injection h with h1 h2
      exact ⟨rfl, h2⟩
    | cons b bs =>
      injection h with h1 h2
      exact absurd h1.symm (hB b (List.mem_cons_self b bs))
  | cons a as ih =>
    intro B X Y hA hB h
    cases B with
    | nil =>
      injection h with h1 h2
      exact absurd h1 (hA a (List.mem_cons_self a as))
    | cons b bs =>
      injection h with h1 h2
      subst h1
      obtain ⟨h3, h4⟩ := ih (fun c hc => hA c (List.mem_cons_of_mem a hc))
        (fun c hc => hB c (List.mem_cons_of_mem a hc)) h2
      exact ⟨by rw [h3], h4⟩

/-! Characterizations of the pattern matcher. -/

theorem get_family_pre_wf {fam : List Char} (h : ∀ c ∈ fam, c ≠ '.') :
    ∀ sz, get_family_pre (fam ++ '.' :: sz) = fam := by
  intro sz
  unfold get_family_pre
  induction fam with
  | nil => simp [List.takeWhile_cons]
  | cons c cs ih =>
    rw [List.cons_append, List.takeWhile_cons,
      if_pos (by simp [h c (List.mem_cons_self c cs)])]
    rw [ih (fun x hx => h x (List.mem_cons_of_mem c hx))]

theorem matchGlob_iff {fam sz q : List Char} (hfam : ∀ c ∈ fam, isLowerAlnum c = true)
    (hq : ∀ c ∈ q, isLowerAlnum c = true) :
    matches_family_pattern (fam ++ '.' :: sz) (q ++ ['*']) = true ↔ q <+: fam := by
  have hqs : rstripStar (q ++ ['*']) = q := by
    rw [rstripStar_append_star, rstripStar_of_no_star
      (fun hs => lowerAlnum_ne_star (hq '*' hs) rfl)]
  have hqdot : '.' ∉ q := fun hd => lowerAlnum_ne_dot (hq '.' hd) rfl
  have hname : lowerStr (fam ++ '.' :: sz) = fam ++ '.' :: lowerStr sz := by
    unfold lowerStr
    rw [List.map_append, List.map_cons]
    have h1 : List.map Char.toLower fam = fam := lowerStr_fix hfam
    have h2 : Char.toLower '.' = '.' := by decide
    rw [h1, h2]
  unfold matches_family_pattern
  rw [if_neg (by simp), hqs, if_neg hqdot, lowerStr_fix hq, hname, prefMatch_iff]
  constructor
  · rintro ⟨t, heq, ht⟩
    obtain ⟨mid, rest, rfl, hmid⟩ := scanAlnumDot_iff.mp ht
    rw [← List.append_assoc] at heq
    obtain ⟨h1, -⟩ := append_dot_inj (fun c hc => lowerAlnum_ne_dot (hfam c hc))
      (fun c hc => by
        rcases List.mem_append.mp hc with hc | hc
        · exact lowerAlnum_ne_dot (hq c hc)
        · exact lowerAlnum_ne_dot (hmid c hc)) heq
    rw [h1]
    exact List.prefix_append q mid
  · rintro ⟨t, rfl⟩
    refine ⟨t ++ '.' :: lowerStr sz, by rw [List.append_assoc], ?_⟩
    exact scanAlnumDot_iff.mpr ⟨t, lowerStr sz, rfl,
      fun c hc => hfam c (List.mem_append_right q hc)⟩

theorem matchSelf {name : List Char} (hdot : '.' ∈ name) (hstar : '*' ∉ name) :
    matches_family_pattern name name = true := by
  unfold matches_family_pattern
  rw [if_neg (by rintro rfl; cases hdot), rstripStar_of_no_star hstar, if_pos hdot]
  simp

/-- Claim C3: `matches_family_pattern` is exact case-insensitive equality
for stripped patterns containing a dot, and otherwise demands the
stripped pattern as a case-insensitive prefix followed by `[a-z0-9]*`
and a dot; every name of the form prefix-plus-alnum-plus-dot matches its
2-character prefix, `"r7"` matches `r7i.large` but not `r6i.large`. -/
theorem c3_matches_family_pattern_spec :
    (∀ api_name pat : List Char, api_name ≠ [] →
      (matches_family_pattern api_name pat = true ↔ MatchSpec api_name pat)) ∧
    (∀ n p mid rest : List Char, p.length = 2 → (∀ c ∈ p, isLowerAlnum c = true) →
      (∀ c ∈ mid, isLowerAlnum c = true) → lowerStr n = p ++ mid ++ '.' :: rest →
      matches_family_pattern n p = true) ∧
    matches_family_pattern ['r','7','i','.','l','a','r','g','e'] ['r','7'] = true ∧
    matches_family_pattern ['r','6','i','.','l','a','r','g','e'] ['r','7'] = false := by
  have main : ∀ api_name pat : List Char, api_name ≠ [] →
      (matches_family_pattern api_name pat = true ↔ MatchSpec api_name pat) := by
    intro api_name pat h
    unfold matches_family_pattern MatchSpec
    rw [if_neg h]
    by_cases hdot : '.' ∈ rstripStar pat
    · rw [if_pos hdot, decide_eq_true_eq]
      constructor
      · intro heq
        exact Or.inl ⟨hdot, heq⟩
      · rintro (⟨-, heq⟩ | ⟨hno, -⟩)
        · exact heq
        · exact absurd hdot hno
    · rw [if_neg hdot, prefMatch_iff]
      constructor
      · rintro ⟨t, heq, ht⟩
        obtain ⟨mid, rest, rfl, hmid⟩ := scanAlnumDot_iff.mp ht
        exact Or.inr ⟨hdot, mid, rest, by rw [List.append_assoc]; exact heq, hmid⟩
      · rintro (⟨hdot', -⟩ | ⟨-, mid, rest, heq, hmid⟩)
        · exact absurd hdot' hdot
        · exact ⟨mid ++ '.' :: rest, by rw [← List.append_assoc]; exact heq,
            scanAlnumDot_iff.mpr ⟨mid, rest, rfl, hmid⟩⟩
  refine ⟨main, ?_, by decide, by decide⟩
  intro n p mid rest hlen hp hmid heq
  have hn : n ≠ [] := by
    intro hh
    subst hh
    exact absurd heq.symm (by simp [lowerStr])
  rw [main n p hn]
  have hps : rstripStar p = p :=
    rstripStar_of_no_star (fun hs => lowerAlnum_ne_star (hp '*' hs) rfl)
  have hpdot : '.' ∉ rstripStar p := by
    rw [hps]
    exact fun hd => lowerAlnum_ne_dot (hp '.' hd) rfl
  exact Or.inr ⟨hpdot, mid, rest, by rw [hps, lowerStr_fix hp]; exact heq, hmid⟩

/-- Witness for C3 at `name = r7i.large`, `pattern = r7`. -/
theorem c3_matches_family_pattern_spec_witness :
    MatchSpec ['r','7','i','.','l','a','r','g','e'] ['r','7'] :=
  (c3_matches_family_pattern_spec.1 ['r','7','i','.','l','a','r','g','e'] ['r','7']
    (by decide)).mp (by decide)

/-- Claim C9: a name matched by any pattern must contain a dot, so a
dotless name is matched by no pattern at all (in particular not by any
output of `synthesize_globs`). -/
theorem c9_no_dot_never_matches :
    ∀ name pat : List Char, '.' ∉ name → matches_family_pattern name pat = false := by
  intro name pat hdot
  by_cases hn : name = []
  · unfold matches_family_pattern
    rw [if_pos hn]
  · unfold matches_family_pattern
    rw [if_neg hn]
    by_cases hd : '.' ∈ rstripStar pat
    · rw [if_pos hd, decide_eq_false_iff_not]
      intro heq
      apply hdot
      rw [← dot_mem_lowerStr, heq]
      exact dot_mem_lowerStr.mpr hd
    · rw [if_neg hd]
      rw [Bool.eq_false_iff]
      intro h
      obtain ⟨t, heq, ht⟩ := prefMatch_iff.mp h
      obtain ⟨mid, rest, rfl, -⟩ := scanAlnumDot_iff.mp ht
      apply hdot
      rw [← dot_mem_lowerStr, heq]
      simp

/-- Witness for C9 at the dotless name `ab` and pattern `ab`. -/
theorem c9_no_dot_never_matches_witness :
    matches_family_pattern ['a','b'] ['a','b'] = false :=
  c9_no_dot_never_matches ['a','b'] ['a','b'] (by decide)

/-- Claim C10: a `Requirement` whose `max_val` is present but below
`min_val` matches no value at all (the inclusive-range test is
unsatisfiable); it does not raise. -/
theorem c10_inverted_range_matches_nothing :
    ∀ mn mx : ℚ, mx < mn → ∀ v : ℚ, Requirement.matches ⟨mn, some mx⟩ v = false := by
  intro mn mx h v
  show decide (mn ≤ v ∧ v ≤ mx) = false
  rw [decide_eq_false_iff_not]
  rintro ⟨h1, h2⟩
  exact absurd (le_trans h1 h2) (not_le.mpr h)

/-- Witness for C10 at the inverted range `min_val = 1 > max_val = 0`. -/
theorem c10_inverted_range_matches_nothing_witness :
    Requirement.matches ⟨(1 : ℚ), some 0⟩ 5 = false :=
  c10_inverted_range_matches_nothing 1 0 (by norm_num) 5

/-! The filter engine. -/

theorem passPatterns_iff {o : Option (List (List Char))} {name : List Char} :
    passPatterns o name = true ↔
      ∀ ps, o = some ps → ∃ p ∈ ps, matches_family_pattern name p = true := by
  cases o with
  | none => simp [passPatterns]
  | some ps => simp [passPatterns, matches_any_pattern, List.any_eq_true]

theorem passReq_iff {o : Option Requirement} {v : ℚ} :
    passReq o v = true ↔ ∀ r, o = some r → r.matches v = true := by
  cases o with
  | none => simp [passReq]
  | some r => simp [passReq]

theorem passArch_iff {o : Option (List (List Char))} {a : List Char} :
    passArch o a = true ↔ ∀ arlist, o = some arlist → a ∈ arlist := by
  cases o with
  | none => simp [passArch]
  | some l => simp [passArch]

theorem passMaxPrice_iff {o price : Option ℚ} :
    passMaxPrice o price = true ↔ ∀ mp, o = some mp → ∃ pr, price = some pr ∧ pr < mp := by
  cases o with
  | none => simp [passMaxPrice]
  | some mp =>
    cases price with
    | none => simp [passMaxPrice]
    | some pr => simp [passMaxPrice]

theorem passEbs_iff {o ebs : Option Int} :
    passEbs o ebs = true ↔ ∀ e, o = some e → ∃ eb, ebs = some eb ∧ e ≤ eb := by
  cases o with
  | none => simp [passEbs]
  | some e =>
    cases ebs with
    | none => simp [passEbs]
    | some eb => simp [passEbs]

theorem passNvme_iff {o : Option Bool} {b : Bool} :
    passNvme o b = true ↔ ∀ nv, o = some nv → b = nv := by
  cases o with
  | none => simp [passNvme]
  | some nv => simp [passNvme]

theorem filter_keeps_iff {patterns : Option (List (List Char))} {cpu ram : Option Requirement}
    {arches : Option (List (List Char))} {max_price : Option ℚ} {ebs_min : Option Int}
    {nvme : Option Bool} {inst : Instance} :
    filter_keeps patterns cpu ram arches max_price ebs_min nvme inst = true ↔
      FilterSpec patterns cpu ram arches max_price ebs_min nvme inst := by
  unfold filter_keeps FilterSpec
  simp only [Bool.and_eq_true, passPatterns_iff, passReq_iff, passArch_iff,
    passMaxPrice_iff, passEbs_iff, passNvme_iff]
  tauto

/-- Claim C4: `filter_instances` returns the subsequence of its input,
in input order, of exactly the instances that satisfy every supplied
constraint, each `None` constraint being skipped entirely. -/
theorem c4_filter_instances_spec :
    ∀ (instances : List Instance) (patterns : Option (List (List Char)))
      (cpu ram : Option Requirement) (arches : Option (List (List Char)))
      (max_price : Option ℚ) (ebs_min : Option Int) (nvme : Option Bool),
      (filter_instances instances patterns cpu ram arches max_price ebs_min nvme).Sublist
        instances ∧
      ∀ inst,
        inst ∈ filter_instances instances patterns cpu ram arches max_price ebs_min nvme ↔
          inst ∈ instances ∧ FilterSpec patterns cpu ram arches max_price ebs_min nvme inst := by
  intro instances patterns cpu ram arches max_price ebs_min nvme
  refine ⟨List.filter_sublist _, fun inst => ?_⟩
  simp only [filter_instances, List.mem_filter, filter_keeps_iff]

theorem length_filter_le_of_imp {p q : Instance → Bool} (l : List Instance)
    (h : ∀ a, p a = true → q a = true) :
    (l.filter p).length ≤ (l.filter q).length :=
  (List.monotone_filter_right l h).length_le

/-- Claim C7: replacing any one skipped (`None`) parameter of
`filter_instances` by a concrete constraint never increases the length
of the result. -/
theorem c7_filter_monotonic :
    ∀ (instances : List Instance) (patterns : Option (List (List Char)))
      (cpu ram : Option Requirement) (arches : Option (List (List Char)))
      (max_price : Option ℚ) (ebs_min : Option Int) (nvme : Option Bool)
      (ps arlist : List (List Char)) (r1 r2 : Requirement) (mp : ℚ) (e : Int) (nv : Bool),
      ((filter_instances instances (some ps) cpu ram arches max_price ebs_min nvme).length ≤
        (filter_instances instances none cpu ram arches max_price ebs_min nvme).length) ∧
      ((filter_instances instances patterns (some r1) ram arches max_price ebs_min nvme).length ≤
        (filter_instances instances patterns none ram arches max_price ebs_min nvme).length) ∧
      ((filter_instances instances patterns cpu (some r2) arches max_price ebs_min nvme).length ≤
        (filter_instances instances patterns cpu none arches max_price ebs_min nvme).length) ∧
      ((filter_instances instances patterns cpu ram (some arlist) max_price ebs_min
          nvme).length ≤
        (filter_instances instances patterns cpu ram none max_price ebs_min nvme).length) ∧
      ((filter_instances instances patterns cpu ram arches (some mp) ebs_min nvme).length ≤
        (filter_instances instances patterns cpu ram arches none ebs_min nvme).length) ∧
      ((filter_instances instances patterns cpu ram arches max_price (some e) nvme).length ≤
        (filter_instances instances patterns cpu ram arches max_price none nvme).length) ∧
      ((filter_instances instances patterns cpu ram arches max_price ebs_min
          (some nv)).length ≤
        (filter_instances instances patterns cpu ram arches max_price ebs_min none).length) := by
  intro instances patterns cpu ram arches max_price ebs_min nvme ps arlist r1 r2 mp e nv
  refine ⟨?_, ?_, ?_, ?_, ?_, ?_, ?_⟩ <;>
    (apply length_filter_le_of_imp
     intro a h
     simp only [filter_keeps, Bool.and_eq_true, passPatterns, passReq, passArch,
       passMaxPrice, passEbs, passNvme] at h ⊢
     tauto)

/-! Subsumption and synthesis scenarios. -/

/-- Claim C5: `_glob_subsumes` holds exactly when the broader pattern
ends in `'*'`, the narrower one is not an exact literal, and the
narrower stripped prefix properly extends the broader stripped prefix;
and of the candidate set `{m5d*, m5dn*}` only `m5d*` survives the
post-processing of `synthesize_globs`. -/
theorem c5_glob_subsumes_spec :
    (∀ a b : List Char, glob_subsumes a b = true ↔ SubsumesSpec a b) ∧
    postprocess [['m','5','d','*'], ['m','5','d','n','*']] = [['m','5','d','*']] := by
  refine ⟨?_, by decide⟩
  intro a b
  cases h1 : endsInStar a <;> cases h2 : decide ('.' ∈ b) <;> cases h3 : endsInStar b <;>
    simp_all [glob_subsumes, SubsumesSpec, ← endsInStar_iff, List.isPrefixOf_iff_prefix,
      decide_eq_true_eq, ne_comm]

/-- Claim C2: with `selected = {m7i.large}` (price 0.096) and no NVMe
constraint, `synthesize_globs` returns `["m7*"]` under budget 0.10 and
falls back to `["m7i.large"]` under budget 0.05, for every universe
(the budget is checked only against the selected instances). -/
theorem c2_single_m7i_budget :
    ∀ univ : List Instance,
      synthesize_globs [m7iLarge] univ (some b010) none = [['m','7','*']] ∧
      synthesize_globs [m7iLarge] univ (some b005) none =
        [['m','7','i','.','l','a','r','g','e']] :=
  fun _ => ⟨rfl, rfl⟩

/-! Price-range computation. -/

theorem orderedInsert_cons_eq (a b : Instance) (l : List Instance) :
    List.orderedInsert (fun x y => priceKey x ≤ priceKey y) a (b :: l) =
      if priceKey a ≤ priceKey b then a :: b :: l
      else b :: List.orderedInsert (fun x y => priceKey x ≤ priceKey y) a l := rfl

theorem firstMinBy_cons (a : Instance) (rest : List Instance) :
    firstMinBy (a :: rest) =
      match firstMinBy rest with
      | none => some a
      | some m => if priceKey a ≤ priceKey m then some a else some m := rfl

theorem lastMaxBy_cons (a : Instance) (rest : List Instance) :
    lastMaxBy (a :: rest) =
      match lastMaxBy rest with
      | none => some a
      | some m => if priceKey m < priceKey a then some a else some m := rfl

theorem head?_orderedInsert (a : Instance) (s : List Instance) :
    (List.orderedInsert (fun x y => priceKey x ≤ priceKey y) a s).head? =
      match s.head? with
      | none => some a
      | some b => if priceKey a ≤ priceKey b then some a else some b := by
  cases s with
  | nil => rfl
  | cons b l =>
    by_cases h : priceKey a ≤ priceKey b
    · rw [orderedInsert_cons_eq, if_pos h]
      show some a = if priceKey a ≤ priceKey b then some a else some b
      rw [if_pos h]
    · rw [orderedInsert_cons_eq, if_neg h]
      show some b = if priceKey a ≤ priceKey b then some a else some b
      rw [if_neg h]

theorem head?_sortByPrice : ∀ l : List Instance, (sortByPrice l).head? = firstMinBy l := by
  intro l
  induction l with
  | nil => rfl
  | cons a rest ih =>
    unfold sortByPrice at ih ⊢
    show (List.orderedInsert _ a (List.insertionSort _ rest)).head? = _
    rw [head?_orderedInsert, ih, firstMinBy_cons]

theorem getLast?_orderedInsert (a : Instance) :
    ∀ s : List Instance, List.Sorted (fun x y => priceKey x ≤ priceKey y) s →
      (List.orderedInsert (fun x y => priceKey x ≤ priceKey y) a s).getLast? =
        match s.getLast? with
        | none => some a
        | some m => if priceKey m < priceKey a then some a else some m := by
  intro s
  induction s with
  | nil =>
    intro _
    rfl
  | cons b l ih =>
    intro hs
    have hbl : ∀ x ∈ l, priceKey b ≤ priceKey x := (List.pairwise_cons.mp hs).1
    have hl := (List.pairwise_cons.mp hs).2
    by_cases h : priceKey a ≤ priceKey b
    · rw [orderedInsert_cons_eq, if_pos h]
      cases hm : (b :: l).getLast? with
      | none => simp at hm
      | some m =>
        have hbm : priceKey b ≤ priceKey m := by
          obtain ⟨ys, hy⟩ := List.getLast?_eq_some_iff.mp hm
          have hmem : m ∈ b :: l := by
            rw [hy]
            exact List.mem_append_right ys (List.mem_cons_self m [])
          rcases List.mem_cons.mp hmem with rfl | hmem'
          · exact le_refl _
          · exact hbl m hmem'
        show (a :: b :: l).getLast? = if priceKey m < priceKey a then some a else some m
        rw [if_neg (not_lt.mpr (le_trans h hbm)), List.getLast?_cons_cons]
        exact hm
    · cases l with
      | nil =>
        rw [orderedInsert_cons_eq, if_neg h]
        have hba : priceKey b < priceKey a := not_le.mp h
        show [b, a].getLast? = if priceKey b < priceKey a then some a else some b
        rw [if_pos hba]
        rfl
      | cons c cs =>
        rw [orderedInsert_cons_eq, if_neg h]
        cases hil : List.orderedInsert (fun x y => priceKey x ≤ priceKey y) a (c :: cs) with
        | nil =>
          exfalso
          revert hil
          rw [orderedInsert_cons_eq]
          split <;> simp
        | cons d ds =>
          rw [List.getLast?_cons_cons, ← hil, ih hl, List.getLast?_cons_cons]

theorem getLast?_sortByPrice : ∀ l : List Instance, (sortByPrice l).getLast? = lastMaxBy l := by
  intro l
  induction l with
  | nil => rfl
  | cons a rest ih =>
    unfold sortByPrice at ih ⊢
    show (List.orderedInsert _ a (List.insertionSort _ rest)).getLast? = _
    rw [getLast?_orderedInsert a _ (List.sorted_insertionSort _ rest), ih, lastMaxBy_cons]

theorem qualifies_iff {rc : RunnerConfig} {i : Instance} :
    (matches_any_pattern i.api_name rc.families && passReq rc.cpu i.vcpus &&
      passReq rc.ram i.memory_gb && i.price.isSome) = true ↔ qualifies rc i := by
  simp only [Bool.and_eq_true, matches_any_pattern, List.any_eq_true, passReq_iff,
    Option.isSome_iff_exists, qualifies, OptReqOk]
  tauto

/-- Claim C8: `get_runner_price_range` returns all-`None` exactly when
the runner has no families or no instance qualifies (matches a family,
passes cpu/ram, has a known price); otherwise it returns the min and max
price with the names of the instances attaining them, ties resolved by
the original filtered order (the stable ascending sort puts the first
min-achiever first and the last max-achiever last). -/
theorem c8_get_runner_price_range_spec :
    ∀ (rc : RunnerConfig) (instances : List Instance),
      get_runner_price_range rc instances =
        if rc.families = [] then (none, none, none, none)
        else
          ((firstMinBy (instances.filter (fun i => decide (qualifies rc i)))).bind
             (fun i => i.price),
           (lastMaxBy (instances.filter (fun i => decide (qualifies rc i)))).bind
             (fun i => i.price),
           (firstMinBy (instances.filter (fun i => decide (qualifies rc i)))).map
             (fun i => i.api_name),
           (lastMaxBy (instances.filter (fun i => decide (qualifies rc i)))).map
             (fun i => i.api_name)) := by
  intro rc instances
  unfold get_runner_price_range
  by_cases hf : rc.families = []
  · rw [if_pos hf, if_pos hf]
  · rw [if_neg hf, if_neg hf]
    have hfe : instances.filter (fun i =>
        matches_any_pattern i.api_name rc.families && passReq rc.cpu i.vcpus &&
          passReq rc.ram i.memory_gb && i.price.isSome) =
        instances.filter (fun i => decide (qualifies rc i)) := by
      apply List.filter_congr
      intro x hx
      rw [Bool.eq_iff_iff, decide_eq_true_eq]
      exact qualifies_iff
    rw [hfe]
    cases hm : instances.filter (fun i => decide (qualifies rc i)) with
    | nil => rfl
    | cons x xs =>
      show ((sortByPrice (x :: xs)).head?.bind (fun i => i.price),
        (sortByPrice (x :: xs)).getLast?.bind (fun i => i.price),
        (sortByPrice (x :: xs)).head?.map (fun i => i.api_name),
        (sortByPrice (x :: xs)).getLast?.map (fun i => i.api_name)) = _
      rw [head?_sortByPrice, getLast?_sortByPrice]

/-! Synthesis: shape, coverage and survival through post-processing. -/

theorem wf_no_star {name : List Char} (h : WFName name) : '*' ∉ name := by
  obtain ⟨fam, sz, rfl, hfam, hstar⟩ := h
  intro hm
  rcases List.mem_append.mp hm with hm | hm
  · exact lowerAlnum_ne_star (hfam '*' hm) rfl
  · rcases List.mem_cons.mp hm with h1 | h1
    · exact absurd h1.symm (by decide)
    · exact hstar h1

theorem wf_dot_mem {name : List Char} (h : WFName name) : '.' ∈ name := by
  obtain ⟨fam, sz, rfl, -, -⟩ := h
  exact List.mem_append_right fam (List.mem_cons_self '.' sz)

theorem wf_family {name : List Char} (h : WFName name) :
    ∃ fam sz, name = fam ++ '.' :: sz ∧ (∀ c ∈ fam, isLowerAlnum c = true) ∧
      get_family_pre name = fam := by
  obtain ⟨fam, sz, rfl, hfam, hstar⟩ := h
  exact ⟨fam, sz, rfl, hfam,
    get_family_pre_wf (fun c hc => lowerAlnum_ne_dot (hfam c hc)) sz⟩

theorem mem_synthRaw (g : List Char) (selected univ : List Instance) (budget : Option ℚ)
    (nvme : Option Bool) (hg : g ∈ synthRaw selected univ budget nvme) :
    (∃ i ∈ selected, g = i.api_name) ∨
    ((∃ i ∈ selected,
        g = twoOf i.api_name ++ ['*'] ∨ g = get_family_pre i.api_name ++ ['*']) ∧
      glob_is_valid selected univ budget nvme g = true) := by
  unfold synthRaw at hg
  rw [List.mem_flatMap] at hg
  obtain ⟨p, hp, hg⟩ := hg
  rw [mem_sortStrs, List.mem_dedup, List.mem_map] at hp
  obtain ⟨i0, hi0, hpi0⟩ := hp
  by_cases hv : glob_is_valid selected univ budget nvme (p ++ ['*']) = true
  · rw [if_pos hv] at hg
    rcases List.mem_singleton.mp hg with rfl
    exact Or.inr ⟨⟨i0, hi0, Or.inl (by rw [hpi0])⟩, hv⟩
  · rw [if_neg hv] at hg
    rw [List.mem_flatMap] at hg
    obtain ⟨v, hvk, hg⟩ := hg
    rw [mem_sortStrs, List.mem_dedup, List.mem_map] at hvk
    obtain ⟨j, hj, hvj⟩ := hvk
    have hjsel : j ∈ selected := (List.mem_filter.mp hj).1
    by_cases hv2 : glob_is_valid selected univ budget nvme (v ++ ['*']) = true
    · rw [if_pos hv2] at hg
      rcases List.mem_singleton.mp hg with rfl
      exact Or.inr ⟨⟨j, hjsel, Or.inr (by rw [hvj])⟩, hv2⟩
    · rw [if_neg hv2] at hg
      rw [List.mem_map] at hg
      obtain ⟨k, hk, hkg⟩ := hg
      have hksel : k ∈ selected := (List.mem_filter.mp ((List.mem_filter.mp hk).1)).1
      exact Or.inl ⟨k, hksel, hkg.symm⟩

theorem synthRaw_shape (selected univ : List Instance) (budget : Option ℚ)
    (nvme : Option Bool) (hwf : ∀ i ∈ selected, WFName i.api_name) :
    ∀ g ∈ synthRaw selected univ budget nvme,
      (∃ q, g = q ++ ['*'] ∧ ∀ c ∈ q, isLowerAlnum c = true) ∨ ('.' ∈ g ∧ '*' ∉ g) := by
  intro g hg
  rcases mem_synthRaw g selected univ budget nvme hg with ⟨i, hi, rfl⟩ | ⟨⟨i, hi, hgi⟩, -⟩
  · exact Or.inr ⟨wf_dot_mem (hwf i hi), wf_no_star (hwf i hi)⟩
  · left
    obtain ⟨fam, sz, hname, hfam, hfampre⟩ := wf_family (hwf i hi)
    rcases hgi with rfl | rfl
    · refine ⟨twoOf i.api_name, rfl, ?_⟩
      intro c hc
      unfold twoOf at hc
      rw [hfampre] at hc
      exact hfam c (List.take_subset 2 fam hc)
    · refine ⟨get_family_pre i.api_name, rfl, ?_⟩
      intro c hc
      rw [hfampre] at hc
      exact hfam c hc

theorem coverage_synthRaw (selected univ : List Instance) (budget : Option ℚ)
    (nvme : Option Bool) (hwf : ∀ i ∈ selected, WFName i.api_name) :
    ∀ i ∈ selected, ∃ g ∈ synthRaw selected univ budget nvme,
      matches_family_pattern i.api_name g = true := by
  intro i hi
  obtain ⟨fam, sz, hname, hfam, hfampre⟩ := wf_family (hwf i hi)
  have hp : twoOf i.api_name ∈ sortStrs ((selected.map (fun j => twoOf j.api_name)).dedup) := by
    rw [mem_sortStrs, List.mem_dedup, List.mem_map]
    exact ⟨i, hi, rfl⟩
  have htwo : twoOf i.api_name = fam.take 2 := by
    unfold twoOf
    rw [hfampre]
  have htake : ∀ c ∈ fam.take 2, isLowerAlnum c = true :=
    fun c hc => hfam c (List.take_subset 2 fam hc)
  by_cases hv : glob_is_valid selected univ budget nvme (twoOf i.api_name ++ ['*']) = true
  · refine ⟨twoOf i.api_name ++ ['*'], ?_, ?_⟩
    · unfold synthRaw
      rw [List.mem_flatMap]
      exact ⟨twoOf i.api_name, hp, by rw [if_pos hv]; exact List.mem_singleton.mpr rfl⟩
    · rw [htwo, hname, matchGlob_iff hfam htake]
      exact List.take_prefix 2 fam
  · by_cases hv2 :
        glob_is_valid selected univ budget nvme (get_family_pre i.api_name ++ ['*']) = true
    · refine ⟨get_family_pre i.api_name ++ ['*'], ?_, ?_⟩
      · unfold synthRaw
        rw [List.mem_flatMap]
        refine ⟨twoOf i.api_name, hp, ?_⟩
        rw [if_neg hv, List.mem_flatMap]
        refine ⟨get_family_pre i.api_name, ?_, ?_⟩
        · rw [mem_sortStrs, List.mem_dedup, List.mem_map]
          exact ⟨i, List.mem_filter.mpr ⟨hi, by simp⟩, rfl⟩
        · rw [if_pos hv2]
          exact List.mem_singleton.mpr rfl
      · rw [hfampre, hname, matchGlob_iff hfam hfam]
    · refine ⟨i.api_name, ?_, ?_⟩
      · unfold synthRaw
        rw [List.mem_flatMap]
        refine ⟨twoOf i.api_name, hp, ?_⟩
        rw [if_neg hv, List.mem_flatMap]
        refine ⟨get_family_pre i.api_name, ?_, ?_⟩
        · rw [mem_sortStrs, List.mem_dedup, List.mem_map]
          exact ⟨i, List.mem_filter.mpr ⟨hi, by simp⟩, rfl⟩
        · rw [if_neg hv2, List.mem_map]
          exact ⟨i, List.mem_filter.mpr ⟨List.mem_filter.mpr ⟨hi, by simp⟩, by simp⟩, rfl⟩
      · exact matchSelf (wf_dot_mem (hwf i hi)) (wf_no_star (hwf i hi))

theorem not_subsumed_mem (raw : List (List Char)) (g0 : List Char) (hg0 : g0 ∈ raw)
    (hsub : ¬∃ other ∈ sortStrs raw.dedup, other ≠ g0 ∧ glob_subsumes other g0 = true) :
    g0 ∈ postprocess raw := by
  have hany : (sortStrs raw.dedup).any
      (fun other => decide (other ≠ g0) && glob_subsumes other g0) = false := by
    rw [Bool.eq_false_iff]
    intro hany2
    rw [List.any_eq_true] at hany2
    obtain ⟨x, hx, hxx⟩ := hany2
    rw [Bool.and_eq_true, decide_eq_true_eq] at hxx
    exact hsub ⟨x, hx, hxx.1, hxx.2⟩
  unfold postprocess
  rw [List.mem_filter]
  refine ⟨by rw [mem_sortStrs, List.mem_dedup]; exact hg0, ?_⟩
  rw [hany]
  rfl

theorem subsumed_step (raw : List (List Char)) (fam sz : List Char)
    (hfam : ∀ c ∈ fam, isLowerAlnum c = true)
    (hshape : ∀ g ∈ raw, (∃ q, g = q ++ ['*'] ∧ ∀ c ∈ q, isLowerAlnum c = true) ∨
      ('.' ∈ g ∧ '*' ∉ g))
    (g0 : List Char) (hg0 : g0 ∈ raw)
    (hmatch : matches_family_pattern (fam ++ '.' :: sz) g0 = true)
    (A : List Char) (hAraw : A ∈ raw) (hAsub : glob_subsumes A g0 = true) :
    matches_family_pattern (fam ++ '.' :: sz) A = true ∧
      (rstripStar A).length < (rstripStar g0).length := by
  have hAshape : ∃ a, A = a ++ ['*'] ∧ ∀ c ∈ a, isLowerAlnum c = true := by
    rcases hshape A hAraw with h | ⟨hdot, hstar⟩
    · exact h
    · exfalso
      have hE : endsInStar A = false := by
        rw [Bool.eq_false_iff]
        intro hE
        obtain ⟨m, rfl⟩ := endsInStar_iff.mp hE
        exact hstar (List.mem_append_right m (List.mem_cons_self '*' []))
      unfold glob_subsumes at hAsub
      rw [hE] at hAsub
      simp at hAsub
  obtain ⟨a, rfl, ha⟩ := hAshape
  have hEA : endsInStar (a ++ ['*']) = true := endsInStar_iff.mpr ⟨a, rfl⟩
  have hg0shape : ∃ q, g0 = q ++ ['*'] ∧ ∀ c ∈ q, isLowerAlnum c = true := by
    rcases hshape g0 hg0 with h | ⟨hdot, hstar⟩
    · exact h
    · exfalso
      have hE0 : endsInStar g0 = false := by
        rw [Bool.eq_false_iff]
        intro hE
        obtain ⟨m, rfl⟩ := endsInStar_iff.mp hE
        exact hstar (List.mem_append_right m (List.mem_cons_self '*' []))
      unfold glob_subsumes at hAsub
      rw [hEA, hE0] at hAsub
      simp [hdot] at hAsub
  obtain ⟨q, rfl, hq⟩ := hg0shape
  have hEQ : endsInStar (q ++ ['*']) = true := endsInStar_iff.mpr ⟨q, rfl⟩
  have hstripA : rstripStar (a ++ ['*']) = a := by
    rw [rstripStar_append_star,
      rstripStar_of_no_star (fun hs => lowerAlnum_ne_star (ha '*' hs) rfl)]
  have hstripQ : rstripStar (q ++ ['*']) = q := by
    rw [rstripStar_append_star,
      rstripStar_of_no_star (fun hs => lowerAlnum_ne_star (hq '*' hs) rfl)]
  have hsub2 : a <+: q ∧ q ≠ a := by
    unfold glob_subsumes at hAsub
    rw [hEA, hEQ, hstripA, hstripQ] at hAsub
    simp only [Bool.not_true, Bool.and_false, Bool.false_eq_true, if_false] at hAsub
    rw [Bool.and_eq_true, decide_eq_true_eq, List.isPrefixOf_iff_prefix] at hAsub
    exact hAsub
  have hqf : q <+: fam := (matchGlob_iff hfam hq).mp hmatch
  have haf : a <+: fam := hsub2.1.trans hqf
  refine ⟨(matchGlob_iff hfam ha).mpr haf, ?_⟩
  rw [hstripA, hstripQ]
  obtain ⟨t, rfl⟩ := hsub2.1
  have ht : t ≠ [] := by
    rintro rfl
    exact hsub2.2 (by simp)
  have : 0 < t.length := List.length_pos.mpr ht
  rw [List.length_append]
  omega

theorem survive_postprocess (raw : List (List Char)) (fam sz : List Char)
    (hfam : ∀ c ∈ fam, isLowerAlnum c = true)
    (hshape : ∀ g ∈ raw, (∃ q, g = q ++ ['*'] ∧ ∀ c ∈ q, isLowerAlnum c = true) ∨
      ('.' ∈ g ∧ '*' ∉ g)) :
    ∀ (k : ℕ) (g0 : List Char), g0 ∈ raw → (rstripStar g0).length ≤ k →
      matches_family_pattern (fam ++ '.' :: sz) g0 = true →
      ∃ g ∈ postprocess raw, matches_family_pattern (fam ++ '.' :: sz) g = true := by
  intro k
  induction k with
  | zero =>
    intro g0 hg0 hlen hmatch
    by_cases hsub : ∃ other ∈ sortStrs raw.dedup, other ≠ g0 ∧ glob_subsumes other g0 = true
    · obtain ⟨A, hAmem, hAne, hAsub⟩ := hsub
      have hAraw : A ∈ raw := by rwa [mem_sortStrs, List.mem_dedup] at hAmem
      obtain ⟨-, hlt⟩ := subsumed_step raw fam sz hfam hshape g0 hg0 hmatch A hAraw hAsub
      omega
    · exact ⟨g0, not_subsumed_mem raw g0 hg0 hsub, hmatch⟩
  | succ k ih =>
    intro g0 hg0 hlen hmatch
    by_cases hsub : ∃ other ∈ sortStrs raw.dedup, other ≠ g0 ∧ glob_subsumes other g0 = true
    · obtain ⟨A, hAmem, hAne, hAsub⟩ := hsub
      have hAraw : A ∈ raw := by rwa [mem_sortStrs, List.mem_dedup] at hAmem
      obtain ⟨hmA, hlt⟩ := subsumed_step raw fam sz hfam hshape g0 hg0 hmatch A hAraw hAsub
      exact ih A hAraw (by omega) hmA
    · exact ⟨g0, not_subsumed_mem raw g0 hg0 hsub, hmatch⟩

/-- Counterexample to claim C1 as stated: calling `synthesize_globs`
with `nvme=True` on a non-NVMe selected instance `m5.large` (present in
the universe) emits the literal `m5.large` as fallback, and that
literal matches the non-NVMe universe instance — so not every returned
entry matches only NVMe instances. -/
theorem c1_counterexample :
    ['m','5','.','l','a','r','g','e'] ∈
      synthesize_globs [m5NoNvme] [m5NoNvme] none (some true) ∧
    matches_family_pattern m5NoNvme.api_name ['m','5','.','l','a','r','g','e'] = true ∧
    m5NoNvme.nvme = false := by
  refine ⟨?_, by decide, rfl⟩
  have h : synthesize_globs [m5NoNvme] [m5NoNvme] none (some true) =
      [['m','5','.','l','a','r','g','e']] := rfl
  rw [h]
  exact List.mem_singleton.mpr rfl

/-- Claim C1 (amended): under `nvme=True`, for well-formed selected
names, every entry of the result that ends in `'*'` (prefix or variant
glob) matches only NVMe instances of the universe; in particular a
broad prefix pattern matching some non-NVMe universe instance never
appears.  (Literal fallbacks carry no NVMe guarantee — see the
counterexample.) -/
theorem c1_nvme_guarantee_amended :
    ∀ (selected univ : List Instance) (budget : Option ℚ),
      (∀ i ∈ selected, WFName i.api_name) →
      ∀ g ∈ synthesize_globs selected univ budget (some true),
        (∃ l, g = l ++ ['*']) →
        ∀ u ∈ univ, matches_family_pattern u.api_name g = true → u.nvme = true := by
  intro selected univ budget hwf g hg hstar u hu hm
  have hgraw : g ∈ synthRaw selected univ budget (some true) := by
    unfold synthesize_globs postprocess at hg
    rw [List.mem_filter, mem_sortStrs, List.mem_dedup] at hg
    exact hg.1
  rcases mem_synthRaw g selected univ budget (some true) hgraw with ⟨i, hi, rfl⟩ | ⟨-, hvalid⟩
  · exfalso
    obtain ⟨l, hl⟩ := hstar
    have hmem : '*' ∈ i.api_name := by
      rw [hl]
      exact List.mem_append_right l (List.mem_cons_self '*' [])
    exact wf_no_star (hwf i hi) hmem
  · unfold glob_is_valid at hvalid
    rw [Bool.and_eq_true] at hvalid
    have h4 : (!glob_matches_non_nvme_in_universe univ g) = true := hvalid.2
    have h3 : glob_matches_non_nvme_in_universe univ g = false := by
      rwa [Bool.not_eq_true'] at h4
    unfold glob_matches_non_nvme_in_universe at h3
    rw [Bool.eq_false_iff] at h3
    cases hn : u.nvme
    · exfalso
      apply h3
      rw [List.any_eq_true]
      refine ⟨u, List.mem_filter.mpr ⟨hu, hm⟩, ?_⟩
      rw [hn]
      rfl
    · rfl

/-- Witness for amended C1: with `selected = universe = {m5d.large}`
(NVMe), the glob `m5d*`... in fact `m5*` is emitted and the theorem
applies to it, concluding that the matched universe instance is NVMe. -/
theorem c1_nvme_guarantee_amended_witness :
    ['m','5','*'] ∈ synthesize_globs [m5dNvme] [m5dNvme] none (some true) ∧
      m5dNvme.nvme = true := by
  have hmem : ['m','5','*'] ∈ synthesize_globs [m5dNvme] [m5dNvme] none (some true) := by
    have h : synthesize_globs [m5dNvme] [m5dNvme] none (some true) = [['m','5','*']] := rfl
    rw [h]
    exact List.mem_singleton.mpr rfl
  refine ⟨hmem, ?_⟩
  refine c1_nvme_guarantee_amended [m5dNvme] [m5dNvme] none ?_ ['m','5','*'] hmem
    ⟨['m','5'], rfl⟩ m5dNvme (List.mem_singleton.mpr rfl) (by decide)
  intro i hi
  rcases List.mem_singleton.mp hi with rfl
  exact ⟨['m','5','d'], ['l','a','r','g','e'], rfl, by decide, by decide⟩

/-- Counterexample to claim C6 as stated: the selected instance `ab`
has no dot in its name, its price 0 is under the budget 1, yet no entry
of the synthesized list (namely `["ab*"]`) matches it, because no
pattern can ever match a dotless name. -/
theorem c6_counterexample :
    (∀ i ∈ [abInst], ∃ p, i.price = some p ∧ p ≤ (1 : ℚ)) ∧
    synthesize_globs [abInst] [abInst] (some 1) none = [['a','b','*']] ∧
    ∀ g ∈ synthesize_globs [abInst] [abInst] (some 1) none,
      matches_family_pattern abInst.api_name g = false := by
  refine ⟨?_, rfl, ?_⟩
  · intro i hi
    rcases List.mem_singleton.mp hi with rfl
    exact ⟨0, rfl, by decide⟩
  · intro g hg
    have h : synthesize_globs [abInst] [abInst] (some 1) none = [['a','b','*']] := rfl
    rw [h] at hg
    rcases List.mem_singleton.mp hg with rfl
    decide

/-- Claim C6 (amended): for well-formed selected names (family of
lowercase letters/digits, a dot, a star-free size) whose prices are
known and within the budget, every selected instance matches some entry
of `synthesize_globs(selected, selected, budget=B)`. -/
theorem c6_full_coverage_amended :
    ∀ (selected : List Instance) (B : ℚ),
      (∀ i ∈ selected, WFName i.api_name) →
      (∀ i ∈ selected, ∃ p, i.price = some p ∧ p ≤ B) →
      ∀ i ∈ selected, ∃ g ∈ synthesize_globs selected selected (some B) none,
        matches_family_pattern i.api_name g = true := by
  intro selected B hwf hprice i hi
  obtain ⟨g0, hg0, hm0⟩ := coverage_synthRaw selected selected (some B) none hwf i hi
  obtain ⟨fam, sz, hname, hfam, -⟩ := wf_family (hwf i hi)
  rw [hname] at hm0 ⊢
  unfold synthesize_globs
  exact survive_postprocess (synthRaw selected selected (some B) none) fam sz hfam
    (synthRaw_shape selected selected (some B) none hwf) (rstripStar g0).length g0 hg0
    (le_refl _) hm0

/-- Witness for amended C6: `selected = {m7i.large}` with budget 0.10
is fully covered by the synthesized list. -/
theorem c6_full_coverage_amended_witness :
    ∃ g ∈ synthesize_globs [m7iLarge] [m7iLarge] (some b010) none,
      matches_family_pattern m7iLarge.api_name g = true := by
  refine c6_full_coverage_amended [m7iLarge] b010 ?_ ?_ m7iLarge (List.mem_singleton.mpr rfl)
  · intro i hi
    rcases List.mem_singleton.mp hi with rfl
    exact ⟨['m','7','i'], ['l','a','r','g','e'], rfl, by decide, by decide⟩
  · intro i hi
    rcases List.mem_singleton.mp hi with rfl
    exact ⟨p096, rfl, by decide⟩

end Runson
